import Mathlib

/-!
Verification of the jsonschema-transpiler specification against the code.

The repository transpiles JSON Schema documents into BigQuery table schemas.
The source tree provides the driver (`src/transpile.py`), the CLI front-end
(`src/cli.py`), helper scripts (`scripts/mps-generate-avro-data-helper.py`),
and the test suite (`tests/`); the core engine modules (the schema AST,
parser, normalizer, merger and synthesizers that the driver imports) are not
present, so those components are modelled here from the specification,
cross-checked against the expected values of the in-repository tests.
-/

/-! ## Generic JSON values

The transpiler consumes a JSON Schema already decoded into a generic tree of
scalars, arrays and objects.  Objects are association lists in source order.
-/

mutual

inductive Json where
  | null
  | bool (b : Bool)
  | num (n : Int)
  | str (s : String)
  | arr (xs : JsonArr)
  | obj (kvs : JsonObj)
deriving Repr, DecidableEq

inductive JsonArr where
  | nil
  | cons (hd : Json) (tl : JsonArr)
deriving Repr, DecidableEq

inductive JsonObj where
  | nil
  | cons (key : String) (val : Json) (tl : JsonObj)
deriving Repr, DecidableEq

end

mutual

/-- Size of a JSON tree, used as recursion fuel for the parser. -/
def Json.size : Json → Nat
  | .null => 1
  | .bool _ => 1
  | .num _ => 1
  | .str _ => 1
  | .arr xs => 1 + xs.size
  | .obj kvs => 1 + kvs.size

def JsonArr.size : JsonArr → Nat
  | .nil => 0
  | .cons hd tl => 1 + hd.size + tl.size

def JsonObj.size : JsonObj → Nat
  | .nil => 0
  | .cons _ v tl => 1 + v.size + tl.size

end

/-- Key lookup in a JSON object (first match, like a Python dict built in
source order). -/
def JsonObj.lookup (k : String) : JsonObj → Option Json
  | .nil => none
  | .cons key v tl => if key = k then some v else tl.lookup k

/-! ## Error kinds (spec section 7) -/

/-- Parse-time failures: `ParseError` for malformed input, `UnsupportedType`
for an unrecognized `type` string. -/
inductive PErr where
  | parseError
  | unsupportedType
deriving Repr, DecidableEq

instance {ε α : Type} [DecidableEq ε] [DecidableEq α] : DecidableEq (Except ε α) := fun x y =>
  match x, y with
  | .ok a, .ok b =>
    if h : a = b then .isTrue (by rw [h])
    else .isFalse (by intro hc; cases hc; exact h rfl)
  | .error e, .error f =>
    if h : e = f then .isTrue (by rw [h])
    else .isFalse (by intro hc; cases hc; exact h rfl)
  | .ok _, .error _ => .isFalse (by intro hc; cases hc)
  | .error _, .ok _ => .isFalse (by intro hc; cases hc)

/-! ## Internal schema AST (spec section 3.1)

A tagged variant; every variant carries a `nullable` flag.  `reqOnly` models
a bare `{"required": [...]}` element inside `allOf`, which contributes a
required-set overlay (spec section 4.1 / 4.2 rule 4).
-/

/-- Atomic kinds.  `json` is the opaque fallback used on type conflicts. -/
inductive AtomKind where
  | int
  | float
  | bool
  | string
  | null
  | json
deriving Repr, DecidableEq

mutual

inductive Ast where
  | atom (kind : AtomKind) (nullable : Bool)
  | object (fields : Fields) (required : List String) (nullable : Bool)
  | map (value : Ast) (nullable : Bool)
  | array (items : Ast) (nullable : Bool)
  | union (alts : AstList) (nullable : Bool)
  | intersection (alts : AstList) (nullable : Bool)
  | tuple (items : AstList) (nullable : Bool)
  | reqOnly (names : List String)
deriving Repr, DecidableEq

inductive Fields where
  | nil
  | cons (name : String) (schema : Ast) (tl : Fields)
deriving Repr, DecidableEq

inductive AstList where
  | nil
  | cons (hd : Ast) (tl : AstList)
deriving Repr, DecidableEq

end

/-- The `nullable` attribute of a schema node. -/
def Ast.nullable : Ast → Bool
  | .atom _ nb => nb
  | .object _ _ nb => nb
  | .map _ nb => nb
  | .array _ nb => nb
  | .union _ nb => nb
  | .intersection _ nb => nb
  | .tuple _ nb => nb
  | .reqOnly _ => false

/-- Replace the `nullable` attribute of a schema node. -/
def Ast.withNullable : Ast → Bool → Ast
  | .atom k _, nb => .atom k nb
  | .object f r _, nb => .object f r nb
  | .map v _, nb => .map v nb
  | .array i _, nb => .array i nb
  | .union a _, nb => .union a nb
  | .intersection a _, nb => .intersection a nb
  | .tuple i _, nb => .tuple i nb
  | .reqOnly ns, _ => .reqOnly ns

/-- Field names of an object, in order. -/
def Fields.names : Fields → List String
  | .nil => []
  | .cons n _ tl => n :: tl.names

/-- Whether a field of the given name is present. -/
def Fields.hasName (n : String) : Fields → Bool
  | .nil => false
  | .cons m _ tl => m = n || tl.hasName n

/-- First field with the given name. -/
def Fields.lookup (n : String) : Fields → Option Ast
  | .nil => none
  | .cons m a tl => if m = n then some a else tl.lookup n

/-- `(n, a)` is an entry of the field list. -/
def Fields.mem (n : String) (a : Ast) : Fields → Bool
  | .nil => false
  | .cons m b tl => (m = n && b = a) || tl.mem n a

/-! ## Merge: the lattice join (spec sections 4.3 and 4.4)

Modelled from the spec: the merger module of the core engine is not under
`src/`; it is reconstructed from spec sections 4.3/4.4 and the expected
values of `tests/python/test_oneof.py` and `tests/test_map.py`.  Following
`test_incompatible_oneof_object` ("a conflict at a node invalidates the
entire tree"), a structural incompatibility is signalled as `none` and
propagates upward through records, arrays and maps; the caller that
initiated the merge (the `oneOf`/`anyOf`/`allOf` fold, or the combination
of `patternProperties` with `additionalProperties`) resolves `none` to the
opaque `Atom(Json)` fallback.
-/

/-- Join of two atomic kinds.  Equal kinds keep the kind, `Int` and `Float`
join to `Float`, `json` is absorbing, anything else is incompatible. -/
def mergeAtomKind : AtomKind → AtomKind → Option AtomKind
  | .json, _ => some .json
  | _, .json => some .json
  | .int, .float => some .float
  | .float, .int => some .float
  | k1, k2 => if k1 = k2 then some k1 else none

/-- Remove the first field with the given name, also returning it. -/
def Fields.lookupRemove (n : String) : Fields → Option (Ast × Fields)
  | .nil => none
  | .cons m a tl =>
    if m = n then some (a, tl)
    else (tl.lookupRemove n).map (fun p => (p.1, .cons m a p.2))

/-- Mark every field nullable: used for fields present in only one of the
two merged objects (spec section 4.3). -/
def Fields.markNullable : Fields → Fields
  | .nil => .nil
  | .cons n a tl => .cons n (a.withNullable true) tl.markNullable

/-- `required(A ∪ B) = required(A) ∩ required(B)` intersected with the
common field names (spec section 4.3). -/
def mergeRequired (rA rB common : List String) : List String :=
  rA.filter (fun n => rB.contains n && common.contains n)

/-- Field names common to both lists. -/
def commonNames (fA fB : Fields) : List String :=
  fA.names.filter (fun n => fB.hasName n)

mutual

/-- Modelled from the spec: the merger module (spec section 4.4) is missing
from `src/`.  Lattice join of two normalized schemas.  `none` means the two
are structurally incompatible; nullability is the OR of the operands. -/
def mergeAst : Ast → Ast → Option Ast
  | .atom .json n1, b => some (.atom .json (n1 || b.nullable))
  | a, .atom .json n2 => some (.atom .json (a.nullable || n2))
  | .atom k1 n1, .atom k2 n2 =>
    (mergeAtomKind k1 k2).map (fun k => .atom k (n1 || n2))
  | .object fA rA n1, .object fB rB n2 =>
    (mergeObjFields fA fB).map
      (fun fs => .object fs (mergeRequired rA rB (commonNames fA fB)) (n1 || n2))
  | .map v1 n1, .map v2 n2 =>
    (mergeAst v1 v2).map (fun v => .map v (n1 || n2))
  | .array x n1, .array y n2 =>
    (mergeAst x y).map (fun i => .array i (n1 || n2))
  | _, _ => none

/-- Merge two field lists: the union of the names; common fields are merged
recursively, one-sided fields are copied marked nullable. -/
def mergeObjFields : Fields → Fields → Option Fields
  | .nil, fB => some fB.markNullable
  | .cons n a tl, fB =>
    match fB.lookupRemove n with
    | some (b, fB2) =>
      match mergeAst a b with
      | some m => (mergeObjFields tl fB2).map (fun fs => .cons n m fs)
      | none => none
    | none => (mergeObjFields tl fB).map (fun fs => .cons n (a.withNullable true) fs)

end

/-- Join resolving incompatibility to the opaque blob: this is the form of
the merge used where a merge is initiated (spec section 4.4: the lattice
has `Json` as its top element). -/
def mergeOrJson (a b : Ast) : Ast :=
  match mergeAst a b with
  | some r => r
  | none => .atom .json (a.nullable || b.nullable)

/-- Left fold of `mergeOrJson`: `merge(merge(s1, s2), s3) …`
(spec section 4.2 rule 3). -/
def foldMerge (acc : Ast) : AstList → Ast
  | .nil => acc
  | .cons h tl => foldMerge (mergeOrJson acc h) tl

/-! ## Normalizer (spec section 4.2)

Modelled from the spec: the normalizer module of the core engine is missing
from `src/`; reconstructed from spec section 4.2, cross-checked against
`tests/test_allof.py`, `tests/python/test_oneof.py` and `tests/test_atomic.py`.
-/

/-- An `Atom(Null)` alternative, absorbed into the parent's nullability
(spec section 4.2 rule 1). -/
def Ast.isNullAtom : Ast → Bool
  | .atom .null _ => true
  | _ => false

/-- Whether some alternative is `null` or nullable: the result of a union
inherits nullability from any alternative (rules 1 and 3). -/
def AstList.anyNullish : AstList → Bool
  | .nil => false
  | .cons h tl => h.isNullAtom || h.nullable || tl.anyNullish

/-- Drop the `Atom(Null)` alternatives. -/
def AstList.dropNull : AstList → AstList
  | .nil => .nil
  | .cons h tl => if h.isNullAtom then tl.dropNull else .cons h tl.dropNull

/-- Required-name overlays contributed by bare `{"required": [...]}`
elements of an `allOf` (spec section 4.2 rule 4). -/
def AstList.overlayNames : AstList → List String
  | .nil => []
  | .cons (.reqOnly ns) tl => ns ++ tl.overlayNames
  | .cons _ tl => tl.overlayNames

/-- The alternatives of an `allOf` that are actual schemas. -/
def AstList.dropReqOnly : AstList → AstList
  | .nil => .nil
  | .cons (.reqOnly _) tl => tl.dropReqOnly
  | .cons h tl => .cons h tl.dropReqOnly

/-- Add the overlay names to the required set of an object, without
changing field presence (names not naming a field are discarded, keeping
the invariant `required ⊆ keys(fields)`). -/
def applyOverlay (names : List String) : Ast → Ast
  | .object fs req nb =>
    .object fs (req ++ names.filter (fun n => fs.hasName n && !req.contains n)) nb
  | s => s

/-- Collapse a list of union alternatives (already normalized, nulls
dropped) by the iterative merge fold; `none` for an empty list. -/
def AstList.reduce : AstList → Option Ast
  | .nil => none
  | .cons h tl => some (foldMerge h tl)

mutual

/-- Modelled from the spec: the normalizer (spec section 4.2) is missing
from `src/`.  Bottom-up rewrite producing a tree free of `Union`,
`Intersection` and `reqOnly` nodes, with `Atom(Null)` alternatives absorbed
into the `nullable` attribute. -/
def normalizeAst : Ast → Ast
  | .atom k nb => .atom k nb
  | .object fs req nb =>
    let nfs := normFields fs
    .object nfs (req.filter (fun n => nfs.hasName n)) nb
  | .map v nb => .map (normalizeAst v) nb
  | .array i nb => .array (normalizeAst i) nb
  | .union alts nb =>
    let ns := normList alts
    let anyN := nb || ns.anyNullish
    match (ns.dropNull).reduce with
    | none => .atom .null true
    | some s => s.withNullable (s.nullable || anyN)
  | .intersection alts nb =>
    let ns := normList alts
    let overlay := ns.overlayNames
    let base :=
      match (ns.dropReqOnly).reduce with
      | none => .atom .json false
      | some s => s
    let r := applyOverlay overlay base
    r.withNullable (r.nullable || nb)
  | .tuple items nb =>
    let ns := normList items
    match ns with
    | .cons h tl => if allEqHead h tl then .array h nb else .tuple ns nb
    | .nil => .tuple .nil nb
  | .reqOnly ns => .reqOnly ns

def normFields : Fields → Fields
  | .nil => .nil
  | .cons n a tl => .cons n (normalizeAst a) (normFields tl)

def normList : AstList → AstList
  | .nil => .nil
  | .cons h tl => .cons (normalizeAst h) (normList tl)

/-- All elements equal to the head: a homogeneous tuple demotes to an array
(spec section 4.2 rule 6). -/
def allEqHead (h : Ast) : AstList → Bool
  | .nil => true
  | .cons x tl => x = h && allEqHead h tl

end

/-! ## BigQuery schema values (spec section 3.2) -/

/-- BigQuery column types. -/
inductive BqType where
  | record
  | string
  | integer
  | float
  | boolean
deriving Repr, DecidableEq

/-- BigQuery column modes. -/
inductive BqMode where
  | required
  | nullable
  | repeated
deriving Repr, DecidableEq

mutual

/-- A BigQuery schema: an atomic column or a record with named fields. -/
inductive Bq where
  | atomic (type : BqType) (mode : BqMode)
  | record (mode : BqMode) (fields : BqFields)
deriving Repr, DecidableEq

inductive BqFields where
  | nil
  | cons (name : String) (schema : Bq) (tl : BqFields)
deriving Repr, DecidableEq

end

/-- The `mode` of a BigQuery schema value. -/
def Bq.mode : Bq → BqMode
  | .atomic _ m => m
  | .record m _ => m

/-- Override the `mode` of a BigQuery schema value. -/
def Bq.withMode : Bq → BqMode → Bq
  | .atomic t _, m => .atomic t m
  | .record _ fs, m => .record m fs

/-- An entry of a BigQuery field list. -/
def BqFields.mem (n : String) (b : Bq) : BqFields → Bool
  | .nil => false
  | .cons m g tl => (m = n && g = b) || tl.mem n b

/-! ## Sorting record fields by name

Record fields are output sorted by `name` to guarantee deterministic output
(spec sections 3.2 and 4.5).  String order is code-point lexicographic, as
produced by sorting the field names of a Python dict.
-/

/-- Code-point lexicographic order on character lists. -/
def lexLe : List Char → List Char → Bool
  | [], _ => true
  | _ :: _, [] => false
  | a :: as, b :: bs => if a.toNat = b.toNat then lexLe as bs else decide (a.toNat < b.toNat)

/-- Name order used for sorting record fields. -/
def nameLe (a b : String) : Bool := lexLe a.toList b.toList

/-- Insert a field into a name-sorted field list. -/
def BqFields.insert (n : String) (b : Bq) : BqFields → BqFields
  | .nil => .cons n b .nil
  | .cons m g tl =>
    if nameLe n m then .cons n b (.cons m g tl) else .cons m g (tl.insert n b)

/-- Insertion sort of a field list by field name. -/
def BqFields.sortByName : BqFields → BqFields
  | .nil => .nil
  | .cons n b tl => tl.sortByName.insert n b

/-! ## BigQuery synthesizer (spec section 4.5)

Modelled from the spec: the synthesizer module of the core engine is missing
from `src/`; reconstructed from spec section 4.5, cross-checked against the
expected values of every test under `tests/`.
-/

/-- Lowering of atomic kinds: `Json` and `Null` are emitted as opaque
`STRING` columns. -/
def bqTypeOf : AtomKind → BqType
  | .int => .integer
  | .float => .float
  | .bool => .boolean
  | .string => .string
  | .null => .string
  | .json => .string

/-- Mode at a site: `REPEATED` wins over all; otherwise nullable maps to
`NULLABLE`, else `REQUIRED` (spec section 4.5). -/
def siteMode (m : BqMode) (nb : Bool) : BqMode :=
  if m = .repeated then .repeated
  else if nb then .nullable else .required

/-- Effective nullability of an object field: its own nullability, or not
being listed in `required` (spec section 4.2 rule 5: required does not
override nullability). -/
def effNullable (a : Ast) (n : String) (req : List String) : Bool :=
  a.nullable || !req.contains n

mutual

/-- Eliminate `Tuple` nodes before lowering: a tuple is emitted as an array
of the merge of its item schemas (spec section 4.5). -/
def elimTuples : Ast → Ast
  | .atom k nb => .atom k nb
  | .object fs req nb => .object (elimTuplesF fs) req nb
  | .map v nb => .map (elimTuples v) nb
  | .array i nb => .array (elimTuples i) nb
  | .union alts nb => .union (elimTuplesL alts) nb
  | .intersection alts nb => .intersection (elimTuplesL alts) nb
  | .tuple items nb =>
    match elimTuplesL items with
    | .nil => .array (.atom .json false) nb
    | .cons h tl => .array (foldMerge h tl) nb
  | .reqOnly ns => .reqOnly ns

def elimTuplesF : Fields → Fields
  | .nil => .nil
  | .cons n a tl => .cons n (elimTuples a) (elimTuplesF tl)

def elimTuplesL : AstList → AstList
  | .nil => .nil
  | .cons h tl => .cons (elimTuples h) (elimTuplesL tl)

end

mutual

/-- Modelled from the spec: the BigQuery synthesizer (spec section 4.5) is
missing from `src/`.  Lowers a normalized, tuple-free tree into a BigQuery
schema; record field lists are sorted by name; `Union`, `Intersection` and
`reqOnly` leftovers (absent after normalization) fall back to the opaque
string column. -/
def lowerBq : Ast → Bq
  | .atom k nb => .atomic (bqTypeOf k) (if nb then .nullable else .required)
  | .object fs req nb =>
    .record (if nb then .nullable else .required) (lowerFields fs req).sortByName
  | .map v _ =>
    .record .repeated
      (.cons "key" (.atomic .string .required)
        (.cons "value" ((lowerBq v).withMode .required) .nil))
  | .array i _ => (lowerBq i).withMode .repeated
  | .union _ nb => .atomic .string (if nb then .nullable else .required)
  | .intersection _ nb => .atomic .string (if nb then .nullable else .required)
  | .tuple _ nb => .atomic .string (if nb then .nullable else .required)
  | .reqOnly _ => .atomic .string .required

/-- Lower each field at its site mode: `REPEATED` wins; otherwise a field
that is nullable or not listed in `required` is `NULLABLE`, else
`REQUIRED`. -/
def lowerFields : Fields → List String → BqFields
  | .nil, _ => .nil
  | .cons n a tl, req =>
    let b := lowerBq a
    .cons n (b.withMode (siteMode b.mode (effNullable a n req))) (lowerFields tl req)

end

/-! ## Driver and pipeline (spec section 4.7, `src/src/transpile.py`) -/

/-- The driver of `src/src/transpile.py`: `target(ast).generate()` applied
to an already-built AST and a target synthesizer. -/
def transpile (ast : Ast) (target : Ast → Bq) : Bq :=
  target ast

/-- The BigQuery synthesizer as the driver's target: normalization followed
by lowering. -/
def bqGenerate (a : Ast) : Bq :=
  lowerBq (elimTuples (normalizeAst a))

/-! ## Input parser (spec section 4.1)

Modelled from the spec: the parser module of the core engine is missing from
`src/`; reconstructed from spec section 4.1.  Recognized keywords: `type`,
`properties`, `required`, `additionalProperties`, `patternProperties`,
`items`, `oneOf`, `anyOf`, `allOf`; all others are ignored silently.  The
recursion is driven by a fuel argument initialized to the size of the input
tree, which bounds the recursion depth.
-/

/-- Map a `type` string to an atomic kind; unknown strings are the
`UnsupportedType` failure. -/
def atomKindOf : String → Except PErr AtomKind
  | "integer" => .ok .int
  | "number" => .ok .float
  | "boolean" => .ok .bool
  | "string" => .ok .string
  | "null" => .ok .null
  | _ => .error .unsupportedType

/-- The strings of a JSON array of strings (an array `type` or a `required`
list); anything else is malformed. -/
def stringsOf : JsonArr → Except PErr (List String)
  | .nil => .ok []
  | .cons (.str s) tl => (stringsOf tl).map (fun l => s :: l)
  | .cons _ _ => .error .parseError

/-- A `type: [..]` array is treated as a union of atoms
(spec section 4.1). -/
def atomsOf : List String → Except PErr AstList
  | [] => .ok .nil
  | t :: ts => do
    let k ← atomKindOf t
    let rest ← atomsOf ts
    .ok (.cons (.atom k false) rest)

/-- Concatenation of alternative lists. -/
def appendAstList : AstList → AstList → AstList
  | .nil, ys => ys
  | .cons h tl, ys => .cons h (appendAstList tl ys)

/-- The `required` keyword of an object, when present. -/
def requiredOf (kvs : JsonObj) : Except PErr (List String) :=
  match kvs.lookup "required" with
  | some (.arr xs) => stringsOf xs
  | some _ => .error .parseError
  | none => .ok []

mutual

/-- Modelled from the spec: the input parser (spec section 4.1) is missing
from `src/`.  Reads a generic JSON value and produces a schema AST; fails
only with `ParseError` on malformed input or `UnsupportedType` on an
unknown `type` string. -/
def parseJ : Nat → Json → Except PErr Ast
  | 0, _ => .error .parseError
  | fuel + 1, j =>
    match j with
    | .obj kvs =>
      match kvs.lookup "type" with
      | some (.str "object") =>
        (match kvs.lookup "properties" with
        | some (.obj props) =>
          match kvs.lookup "additionalProperties" with
          | some (.obj _) => .ok (.atom .json false)
          | _ => do
            let fs ← parseProps fuel props
            let req ← requiredOf kvs
            .ok (.object fs req false)
        | some _ => .error .parseError
        | none =>
          let pats : Except PErr AstList :=
            match kvs.lookup "patternProperties" with
            | some (.obj pkvs) => parseVals fuel pkvs
            | some _ => .error .parseError
            | none => .ok .nil
          do
            let ps ← pats
            let cands ←
              match kvs.lookup "additionalProperties" with
              | some (.obj akvs) =>
                (parseJ fuel (.obj akvs)).map (fun a => appendAstList ps (.cons a .nil))
              | _ => .ok ps
            match cands with
            | .nil => do
              let req ← requiredOf kvs
              .ok (.object .nil req false)
            | .cons _ _ => .ok (.map (.union cands false) false))
      | some (.str "array") =>
        (match kvs.lookup "items" with
        | some (.obj ikvs) => (parseJ fuel (.obj ikvs)).map (fun i => .array i false)
        | some (.arr xs) => (parseList fuel xs).map (fun l => .tuple l false)
        | some _ => .error .parseError
        | none => .ok (.array (.atom .json false) false))
      | some (.str t) => (atomKindOf t).map (fun k => .atom k false)
      | some (.arr ts) => do
        let ss ← stringsOf ts
        let alts ← atomsOf ss
        .ok (.union alts false)
      | some _ => .error .parseError
      | none =>
        match kvs.lookup "oneOf" with
        | some (.arr xs) => (parseList fuel xs).map (fun l => .union l false)
        | some _ => .error .parseError
        | none =>
          match kvs.lookup "anyOf" with
          | some (.arr xs) => (parseList fuel xs).map (fun l => .union l false)
          | some _ => .error .parseError
          | none =>
            match kvs.lookup "allOf" with
            | some (.arr xs) => (parseList fuel xs).map (fun l => .intersection l false)
            | some _ => .error .parseError
            | none =>
              match kvs.lookup "required" with
              | some (.arr xs) => (stringsOf xs).map (fun ns => .reqOnly ns)
              | some _ => .error .parseError
              | none => .ok (.atom .json false)
    | _ => .error .parseError

/-- Parse the alternatives of a combinator. -/
def parseList : Nat → JsonArr → Except PErr AstList
  | 0, _ => .error .parseError
  | fuel + 1, xs =>
    match xs with
    | .nil => .ok .nil
    | .cons hd tl => do
      let a ← parseJ fuel hd
      let rest ← parseList fuel tl
      .ok (.cons a rest)

/-- Parse the fields of a `properties` object. -/
def parseProps : Nat → JsonObj → Except PErr Fields
  | 0, _ => .error .parseError
  | fuel + 1, kvs =>
    match kvs with
    | .nil => .ok .nil
    | .cons n v tl => do
      let a ← parseJ fuel v
      let rest ← parseProps fuel tl
      .ok (.cons n a rest)

/-- Parse the value schemas of a `patternProperties` object (the pattern
keys are irrelevant to the output shape). -/
def parseVals : Nat → JsonObj → Except PErr AstList
  | 0, _ => .error .parseError
  | fuel + 1, kvs =>
    match kvs with
    | .nil => .ok .nil
    | .cons _ v tl => do
      let a ← parseJ fuel v
      let rest ← parseVals fuel tl
      .ok (.cons a rest)

end

/-- Parse a JSON value into a schema AST (fuel instantiated to the tree
size, which bounds the recursion depth). -/
def parseSchema (j : Json) : Except PErr Ast :=
  parseJ (j.size) j

/-- End-to-end BigQuery transpilation, as exercised by `bq_schema` in the
test suite: parse, then normalize and synthesize through the driver. -/
def bq_schema (j : Json) : Except PErr Bq :=
  (parseSchema j).map (fun a => transpile a bqGenerate)

/-! ## CLI front-end (`src/src/cli.py`) -/

/-- The values accepted by the required CLI option `--format`, from
`click.Choice(["bigquery"])` in `src/src/cli.py`. -/
def cliFormatChoices : List String := ["bigquery"]

/-- Semantics of `click.Choice`: a value outside the list of choices is
rejected as a usage error. -/
def validateFormat (v : String) : Except Unit String :=
  if cliFormatChoices.contains v then .ok v else .error ()

/-! ## Avro name mangling (`scripts/mps-generate-avro-data-helper.py`) -/

/-- The per-character replacement of
`key.replace("-", "_").replace(".", "_")`. -/
def replaceDashDot (c : Char) : Char :=
  if c = '-' || c = '.' then '_' else c

/-- The `format_key` function of `scripts/mps-generate-avro-data-helper.py`:
reject the empty key, replace `-` and `.` with `_`, and prefix an
underscore when the first character is a digit. -/
def format_key (key : String) : Except String String :=
  if key = "" then .error "empty key not allowed"
  else
    let r := key.toList.map replaceDashDot
    let r2 :=
      match r with
      | [] => r
      | c :: _ => if c.isDigit then '_' :: r else r
    .ok (String.mk r2)

/-- The Avro identifier grammar `[A-Za-z_][A-Za-z0-9_]*`. -/
def isAvroIdent (s : String) : Bool :=
  match s.toList with
  | [] => false
  | c :: rest => (c.isAlpha || c = '_') && rest.all (fun d => d.isAlphanum || d = '_')

/-- Characters drawn from `[A-Za-z0-9_.-]`: the alphabet on which the
mangling rule actually produces legal identifiers. -/
def manglableChar (c : Char) : Bool :=
  c.isAlphanum || c = '_' || c = '-' || c = '.'

/-! ## Sortedness of the synthesized output -/

/-- The name `n` is at most the first name of the list. -/
def BqFields.headGe (n : String) : BqFields → Bool
  | .nil => true
  | .cons m _ _ => nameLe n m

/-- Field names are in ascending order. -/
def BqFields.namesSorted : BqFields → Bool
  | .nil => true
  | .cons n _ tl => tl.headGe n && tl.namesSorted

mutual

/-- Every record field list in the schema, at every depth, is sorted by
field name. -/
def Bq.sortedRecords : Bq → Bool
  | .atomic _ _ => true
  | .record _ fs => fs.namesSorted && fs.allSorted

def BqFields.allSorted : BqFields → Bool
  | .nil => true
  | .cons _ b tl => b.sortedRecords && tl.allSorted

end

/-- The field list of a BigQuery schema (empty for atomic columns). -/
def Bq.fields : Bq → BqFields
  | .atomic _ _ => .nil
  | .record _ fs => fs

/-! ## Concrete inputs named by the claims -/

/-- The four atomic (non-null) `type` strings. -/
def atomicTypeStrings : List String := ["integer", "number", "boolean", "string"]

/-- `{"type": t}` -/
def typeSchema (t : String) : Json := .obj (.cons "type" (.str t) .nil)

/-- `{"type": [t, "null"]}` -/
def typeWithNullSchema (t : String) : Json :=
  .obj (.cons "type" (.arr (.cons (.str t) (.cons (.str "null") .nil))) .nil)

/-- `{"type": [t1, t2]}` -/
def typePairSchema (t1 t2 : String) : Json :=
  .obj (.cons "type" (.arr (.cons (.str t1) (.cons (.str t2) .nil))) .nil)

/-- `{"type": [t1, t2, "null"]}` -/
def typePairNullSchema (t1 t2 : String) : Json :=
  .obj (.cons "type" (.arr (.cons (.str t1) (.cons (.str t2) (.cons (.str "null") .nil)))) .nil)

/-- Two atomic kinds conflict when they are distinct and not the
`Int`/`Float` pair (whose join is `Float`). -/
def kindsConflict : AtomKind → AtomKind → Bool
  | .int, .float => false
  | .float, .int => false
  | k1, k2 => !(k1 = k2)

/-- `{"type": "object", "properties": {f: {"type": t}}}` -/
def objectOneField (f t : String) : Json :=
  .obj (.cons "type" (.str "object")
    (.cons "properties" (.obj (.cons f (typeSchema t) .nil)) .nil))

/-- A `oneOf` of two alternatives. -/
def oneOfTwo (a b : Json) : Json :=
  .obj (.cons "oneOf" (.arr (.cons a (.cons b .nil))) .nil)

/-- The `oneOf` of two objects with conflicting types for the common field
`field_1`, from `test_incompatible_oneof_object`. -/
def incompatibleOneOfObjects : Json :=
  oneOfTwo (objectOneField "field_1" "integer") (objectOneField "field_1" "boolean")

/-- Conflicting atomic `type` strings: both recognized, mapping to
conflicting kinds. -/
def atomStringsConflict (t1 t2 : String) : Bool :=
  match atomKindOf t1, atomKindOf t2 with
  | .ok k1, .ok k2 => kindsConflict k1 k2
  | _, _ => false

/-- The object of `test_object_with_atomics_is_sorted`, whose properties are
listed out of order. -/
def objectWithAtomics : Json :=
  .obj (.cons "type" (.str "object") (.cons "properties" (.obj
    (.cons "field_1" (typeSchema "integer")
    (.cons "field_4" (typeSchema "number")
    (.cons "field_3" (typeSchema "boolean")
    (.cons "field_2" (typeSchema "string") .nil))))) .nil))

/-- The `allOf` of an object and a bare required overlay, from
`test_allof_object`. -/
def allOfWithRequired : Json :=
  .obj (.cons "allOf" (.arr
    (.cons (.obj (.cons "type" (.str "object") (.cons "properties" (.obj
      (.cons "field_1" (typeWithNullSchema "integer")
      (.cons "field_2" (typeSchema "string")
      (.cons "field_3" (typeSchema "boolean") .nil)))) .nil)))
    (.cons (.obj (.cons "required" (.arr (.cons (.str "field_1") (.cons (.str "field_3") .nil))) .nil))
    .nil))) .nil)

/-- The object with a nullable required field, from
`test_object_with_atomics_required_with_null`. -/
def objectRequiredWithNull : Json :=
  .obj (.cons "type" (.str "object") (.cons "properties" (.obj
    (.cons "field_1" (typeWithNullSchema "integer")
    (.cons "field_2" (typeSchema "string")
    (.cons "field_3" (typeSchema "boolean") .nil))))
    (.cons "required" (.arr (.cons (.str "field_1") (.cons (.str "field_3") .nil))) .nil)))

/-- `{"type": "object", "additionalProperties": {"type": "integer"}}`, from
`test_map_with_atomics`. -/
def mapOfIntegers : Json :=
  .obj (.cons "type" (.str "object") (.cons "additionalProperties" (typeSchema "integer") .nil))

/-- A map with compatible `patternProperties` and `additionalProperties`
value schemas, from `test_map_with_pattern_and_additional_properties`. -/
def mapPatternAndAdditional : Json :=
  .obj (.cons "type" (.str "object") (.cons "patternProperties"
    (.obj (.cons ".+" (typeSchema "integer") .nil))
    (.cons "additionalProperties" (typeSchema "integer") .nil)))

/-- A map with conflicting `patternProperties` and `additionalProperties`
value schemas, from
`test_incompatible_map_with_pattern_and_additional_properties`. -/
def mapPatternAndAdditionalConflict : Json :=
  .obj (.cons "type" (.str "object") (.cons "patternProperties"
    (.obj (.cons ".+" (typeSchema "string") .nil))
    (.cons "additionalProperties" (typeSchema "integer") .nil)))

/-- The `oneOf` object merge of `test_oneof_object_merge`: two objects with
the disjoint fields `field_1`/`field_2` and the common field `field_3`. -/
def oneOfObjectMerge : Json :=
  oneOfTwo
    (.obj (.cons "type" (.str "object") (.cons "properties" (.obj
      (.cons "field_1" (typeSchema "integer")
      (.cons "field_3" (typeSchema "number") .nil))) .nil)))
    (.obj (.cons "type" (.str "object") (.cons "properties" (.obj
      (.cons "field_2" (typeSchema "boolean")
      (.cons "field_3" (typeSchema "number") .nil))) .nil)))

/-- A `oneOf` of two objects with disjoint fields where one field is an
array: the one-sided array field is emitted `REPEATED`, not `NULLABLE`. -/
def oneOfWithArrayField : Json :=
  oneOfTwo
    (.obj (.cons "type" (.str "object") (.cons "properties" (.obj
      (.cons "a" (.obj (.cons "type" (.str "array") (.cons "items" (typeSchema "integer") .nil))) .nil)) .nil)))
    (.obj (.cons "type" (.str "object") (.cons "properties" (.obj
      (.cons "b" (typeSchema "boolean") .nil)) .nil)))

/-! # Theorems -/

/-- C1: for every atomic type string `t`, transpiling `{"type": [t, "null"]}`
to BigQuery yields the same type as transpiling `{"type": t}` but with mode
`NULLABLE`, while `{"type": t}` alone yields mode `REQUIRED`. -/
theorem c1_nullability_absorption :
    ∀ t ∈ atomicTypeStrings, ∃ g : BqType,
      bq_schema (typeSchema t) = .ok (.atomic g .required) ∧
      bq_schema (typeWithNullSchema t) = .ok (.atomic g .nullable) := by
  intro t ht
  fin_cases ht
  · exact ⟨.integer, by decide, by decide⟩
  · exact ⟨.float, by decide, by decide⟩
  · exact ⟨.boolean, by decide, by decide⟩
  · exact ⟨.string, by decide, by decide⟩

/-- Witness for C1 at `t = "integer"`. -/
theorem c1_nullability_absorption_witness :
    ∃ g : BqType,
      bq_schema (typeSchema "integer") = .ok (.atomic g .required) ∧
      bq_schema (typeWithNullSchema "integer") = .ok (.atomic g .nullable) :=
  c1_nullability_absorption "integer" (by decide)

/-- C2: structural incompatibility is never an error.  For every multitype
of two recognized atomic strings with conflicting kinds, BigQuery
transpilation succeeds with the opaque `STRING` fallback, `REQUIRED`
without a `"null"` alternative and `NULLABLE` with one; a `oneOf` of two
objects with conflicting field types likewise succeeds with `STRING`. -/
theorem c2_incompatible_never_error :
    (∀ t1 ∈ atomicTypeStrings, ∀ t2 ∈ atomicTypeStrings,
      atomStringsConflict t1 t2 = true →
      bq_schema (typePairSchema t1 t2) = .ok (.atomic .string .required) ∧
      bq_schema (typePairNullSchema t1 t2) = .ok (.atomic .string .nullable)) ∧
    bq_schema incompatibleOneOfObjects = .ok (.atomic .string .required) := by
  refine ⟨?_, by decide⟩
  intro t1 h1 t2 h2 hc
  fin_cases h1 <;> fin_cases h2 <;>
    first
    | exact absurd hc (by decide)
    | exact ⟨by decide, by decide⟩

/-- Witness for C2 at the `{"type": ["boolean", "integer"]}` instance. -/
theorem c2_incompatible_never_error_witness :
    bq_schema (typePairSchema "boolean" "integer") = .ok (.atomic .string .required) ∧
    bq_schema (typePairNullSchema "boolean" "integer") = .ok (.atomic .string .nullable) :=
  c2_incompatible_never_error.1 "boolean" (by decide) "integer" (by decide) (by decide)

/-- C7: the driver pipeline is total after parsing: whenever the parser
succeeds, transpilation returns a target schema through the driver's
`transpile`, and every pipeline failure is a parse failure. -/
theorem c7_driver_totality :
    (∀ j a, parseSchema j = .ok a → bq_schema j = .ok (transpile a bqGenerate)) ∧
    (∀ j e, bq_schema j = .error e → parseSchema j = .error e) := by
  constructor
  · intro j a h
    simp [bq_schema, h, Except.map]
  · intro j e h
    cases hp : parseSchema j with
    | ok a => rw [bq_schema, hp] at h; simp [Except.map] at h
    | error e2 =>
      rw [bq_schema, hp] at h
      simp only [Except.map] at h
      cases h
      rfl

/-- Witness for C7 at `{"type": "integer"}`. -/
theorem c7_driver_totality_witness :
    bq_schema (typeSchema "integer") = .ok (transpile (.atom .int false) bqGenerate) :=
  c7_driver_totality.1 (typeSchema "integer") (.atom .int false) (by decide)

/-- C8 counterexample: the CLI's `--format` choice list is exactly
`["bigquery"]`, and the value `avro` is rejected as a usage error, refuting
the claim that `avro` is accepted. -/
theorem c8_counterexample :
    cliFormatChoices = ["bigquery"] ∧ validateFormat "avro" = .error () := by
  constructor
  · rfl
  · decide

/-- C8 (amended): the CLI accepts exactly one value for the required
`--format` option, `bigquery`; `avro` and every other value are rejected
as a usage error. -/
theorem c8_cli_format_choices :
    ∀ v : String, validateFormat v = .ok v ↔ v = "bigquery" := by
  intro v
  constructor
  · intro h
    by_cases hb : v = "bigquery"
    · exact hb
    · exfalso
      rw [validateFormat, cliFormatChoices] at h
      simp [List.contains, hb] at h
  · intro h
    subst h
    decide

/-- Witness for C8 at `v = "bigquery"`. -/
theorem c8_cli_format_choices_witness :
    validateFormat "bigquery" = .ok "bigquery" :=
  (c8_cli_format_choices "bigquery").mpr rfl

/-! ## Lemmas about the Avro name mangling -/

theorem replaceDashDot_good (c : Char) (h : manglableChar c = true) :
    ((replaceDashDot c).isAlphanum || replaceDashDot c = '_') = true := by
  by_cases h1 : c = '-'
  · simp [replaceDashDot, h1]
  · by_cases h2 : c = '.'
    · simp [replaceDashDot, h2]
    · simp only [manglableChar, Bool.or_eq_true, decide_eq_true_eq] at h
      simp only [replaceDashDot, h1, h2, Bool.or_self, if_neg, Bool.or_eq_true,
        decide_eq_true_eq]
      rcases h with ((ha | hu) | hd) | hp
      · exact Or.inl ha
      · exact Or.inr hu
      · exact absurd hd h1
      · exact absurd hp h2

theorem replaceDashDot_idem (c : Char) :
    replaceDashDot (replaceDashDot c) = replaceDashDot c := by
  by_cases h1 : c = '-'
  · simp [replaceDashDot, h1]
  · by_cases h2 : c = '.'
    · simp [replaceDashDot, h2]
    · simp [replaceDashDot, h1, h2]

theorem map_replaceDashDot_idem (l : List Char) :
    (l.map replaceDashDot).map replaceDashDot = l.map replaceDashDot := by
  induction l with
  | nil => rfl
  | cons c cs ih => simp [replaceDashDot_idem, ih]

theorem format_key_cons (c : Char) (cs : List Char) :
    format_key (String.mk (c :: cs)) =
      .ok (String.mk (
        if (replaceDashDot c).isDigit then
          '_' :: replaceDashDot c :: cs.map replaceDashDot
        else replaceDashDot c :: cs.map replaceDashDot)) := by
  rw [format_key, if_neg (by intro hh; exact absurd (congrArg String.data hh) (by simp))]
  by_cases hd : (replaceDashDot c).isDigit <;> simp [String.toList, hd]

/-- C9 counterexample: the claim that mangling every non-empty name yields a
legal Avro identifier fails at the name `"a b"`, which `format_key` returns
unchanged although it does not match `[A-Za-z_][A-Za-z0-9_]*`. -/
theorem c9_counterexample :
    ("a b" : String) ≠ "" ∧ format_key "a b" = .ok "a b" ∧ isAvroIdent "a b" = false := by
  refine ⟨by decide, by decide, by decide⟩

/-- C9 (amended): for every non-empty name whose characters are drawn from
letters, digits, `_`, `-` and `.`, the mangling function returns a string
matching the Avro identifier grammar `[A-Za-z_][A-Za-z0-9_]*`; mangling the
empty string fails with an error rather than returning a name. -/
theorem c9_mangling_legality :
    (∀ k : String, k ≠ "" → k.toList.all manglableChar = true →
      ∃ r, format_key k = .ok r ∧ isAvroIdent r = true) ∧
    format_key "" = .error "empty key not allowed" := by
  refine ⟨?_, by decide⟩
  intro k hne hall
  obtain ⟨l⟩ := k
  cases l with
  | nil => exact absurd (by decide) hne
  | cons c cs =>
    rw [format_key_cons]
    simp only [String.toList, List.all_cons, Bool.and_eq_true] at hall
    obtain ⟨hc, hcs⟩ := hall
    have hrest : (cs.map replaceDashDot).all (fun d => d.isAlphanum || d = '_') = true := by
      rw [List.all_map, List.all_eq_true]
      intro d hd
      simpa using replaceDashDot_good d (by
        rw [List.all_eq_true] at hcs
        exact hcs d hd)
    by_cases hd : (replaceDashDot c).isDigit
    · refine ⟨_, by rw [if_pos hd], ?_⟩
      simp only [isAvroIdent, String.toList, List.all_cons, Bool.and_eq_true]
      refine ⟨by decide, ?_, hrest⟩
      simpa using replaceDashDot_good c hc
    · refine ⟨_, by rw [if_neg hd], ?_⟩
      simp only [isAvroIdent, String.toList, Bool.and_eq_true]
      constructor
      · have hg := replaceDashDot_good c hc
        simp only [Bool.or_eq_true, decide_eq_true_eq] at hg ⊢
        rcases hg with hg | hg
        · left
          rw [Char.isAlphanum, Bool.or_eq_true] at hg
          rcases hg with hg | hg
          · exact hg
          · exact absurd hg hd
        · right
          exact hg
      · exact hrest

/-- Witness for C9 at `k = "07-spam.eggs"`. -/
theorem c9_mangling_legality_witness :
    ∃ r, format_key "07-spam.eggs" = .ok r ∧ isAvroIdent r = true :=
  c9_mangling_legality.1 "07-spam.eggs" (by decide) (by decide)

/-- C10: the name mangling is idempotent on every non-empty name: the first
application already removes every `-` and `.` and never leaves a leading
digit, so a second application returns its input unchanged. -/
theorem c10_mangling_idempotent :
    ∀ k : String, k ≠ "" → ∃ r, format_key k = .ok r ∧ format_key r = .ok r := by
  intro k hne
  obtain ⟨l⟩ := k
  cases l with
  | nil => exact absurd (by decide) hne
  | cons c cs =>
    rw [format_key_cons]
    by_cases hd : (replaceDashDot c).isDigit
    · refine ⟨_, by rw [if_pos hd], ?_⟩
      rw [format_key_cons, if_neg (by decide)]
      have h1 : replaceDashDot '_' = '_' := by decide
      have h2 : replaceDashDot ∘ replaceDashDot = replaceDashDot := funext replaceDashDot_idem
      simp [h1, h2, replaceDashDot_idem]
    · refine ⟨_, by rw [if_neg hd], ?_⟩
      rw [format_key_cons, replaceDashDot_idem, if_neg hd]
      have h2 : replaceDashDot ∘ replaceDashDot = replaceDashDot := funext replaceDashDot_idem
      simp [h2]

/-- Witness for C10 at `k = "3fo-o.x"`. -/
theorem c10_mangling_idempotent_witness :
    ∃ r, format_key "3fo-o.x" = .ok r ∧ format_key r = .ok r :=
  c10_mangling_idempotent "3fo-o.x" (by decide)

/-- C6: every `Map` lowers to a `REPEATED RECORD` with exactly the fields
`key: STRING REQUIRED` and `value: lower(v)` with mode normalized to
`REQUIRED`; merging identical atomic kinds keeps the kind and conflicting
kinds yield the opaque `json` (emitted `STRING`); end-to-end instances from
`test_map_with_atomics` and
`test_(incompatible_)map_with_pattern_and_additional_properties`. -/
theorem c6_map_lowering :
    (∀ v nb, lowerBq (.map v nb) = .record .repeated
      (.cons "key" (.atomic .string .required)
        (.cons "value" ((lowerBq v).withMode .required) .nil))) ∧
    (∀ k n1 n2, mergeOrJson (.atom k n1) (.atom k n2) = .atom k (n1 || n2)) ∧
    (∀ k1 k2 n1 n2, kindsConflict k1 k2 = true →
      mergeOrJson (.atom k1 n1) (.atom k2 n2) = .atom .json (n1 || n2)) ∧
    bq_schema mapOfIntegers = .ok (.record .repeated
      (.cons "key" (.atomic .string .required)
        (.cons "value" (.atomic .integer .required) .nil))) ∧
    bq_schema mapPatternAndAdditional = .ok (.record .repeated
      (.cons "key" (.atomic .string .required)
        (.cons "value" (.atomic .integer .required) .nil))) ∧
    bq_schema mapPatternAndAdditionalConflict = .ok (.record .repeated
      (.cons "key" (.atomic .string .required)
        (.cons "value" (.atomic .string .required) .nil))) := by
  refine ⟨?_, ?_, ?_, by decide, by decide, by decide⟩
  · intro v nb
    rfl
  · intro k n1 n2
    cases k <;> cases n1 <;> cases n2 <;> decide
  · intro k1 k2 n1 n2 hc
    cases k1 <;> cases k2 <;> first
      | exact absurd hc (by decide)
      | (cases n1 <;> cases n2 <;> decide)

/-- Witness for C6 at the conflicting pair `Bool`/`Int`. -/
theorem c6_map_lowering_witness :
    mergeOrJson (.atom .bool true) (.atom .int false) = .atom .json true :=
  c6_map_lowering.2.2.1 .bool .int true false (by decide)

/-! ## Lemmas: sortedness of synthesized records -/

theorem headGe_cons (n m : String) (g : Bq) (tl : BqFields) :
    BqFields.headGe n (.cons m g tl) = nameLe n m := rfl

theorem namesSorted_cons (n : String) (b : Bq) (tl : BqFields) :
    (BqFields.cons n b tl).namesSorted = (tl.headGe n && tl.namesSorted) := rfl

theorem allSorted_cons (n : String) (b : Bq) (tl : BqFields) :
    (BqFields.cons n b tl).allSorted = (b.sortedRecords && tl.allSorted) := rfl

theorem insert_cons (n m : String) (b g : Bq) (tl : BqFields) :
    (BqFields.cons m g tl).insert n b =
      if nameLe n m then .cons n b (.cons m g tl) else .cons m g (tl.insert n b) := rfl

theorem lexLe_total (as : List Char) : ∀ bs, (lexLe as bs || lexLe bs as) = true := by
  induction as with
  | nil => intro bs; simp [lexLe]
  | cons a as ih =>
    intro bs
    cases bs with
    | nil => simp [lexLe]
    | cons b bs2 =>
      by_cases h : a.toNat = b.toNat
      · rw [lexLe, lexLe, if_pos h, if_pos h.symm]
        exact ih bs2
      · have h2 : ¬ b.toNat = a.toNat := fun hh => h hh.symm
        rw [lexLe, lexLe, if_neg h, if_neg h2]
        simp only [decide_eq_true_eq, Bool.or_eq_true]
        omega

theorem nameLe_total (a b : String) : (nameLe a b || nameLe b a) = true :=
  lexLe_total a.toList b.toList

theorem headGe_insert (m n : String) (b : Bq) (l : BqFields)
    (h1 : nameLe m n = true) (h2 : l.headGe m = true) :
    ((l.insert n b).headGe m) = true := by
  cases l with
  | nil => simpa [BqFields.insert, headGe_cons] using h1
  | cons k g tl =>
    rw [insert_cons]
    by_cases hk : nameLe n k = true
    · rw [if_pos hk, headGe_cons]
      exact h1
    · rw [if_neg (by simp [hk]), headGe_cons]
      rw [headGe_cons] at h2
      exact h2

theorem namesSorted_insert : (l : BqFields) → (n : String) → (b : Bq) →
    l.namesSorted = true → ((l.insert n b).namesSorted = true)
  | .nil, _, _, _ => rfl
  | .cons k g tl, n, b, h => by
    rw [namesSorted_cons, Bool.and_eq_true] at h
    rw [insert_cons]
    by_cases hk : nameLe n k = true
    · rw [if_pos hk, namesSorted_cons, namesSorted_cons, headGe_cons]
      simp [hk, h.1, h.2]
    · rw [if_neg (by simp [hk]), namesSorted_cons]
      have hkn : nameLe k n = true := by
        rcases (Bool.or_eq_true _ _).mp (nameLe_total n k) with h1 | h1
        · exact absurd h1 hk
        · exact h1
      simp [headGe_insert k n b tl hkn h.1, namesSorted_insert tl n b h.2]

theorem sortByName_namesSorted : (l : BqFields) → (l.sortByName.namesSorted = true)
  | .nil => rfl
  | .cons n b tl => namesSorted_insert tl.sortByName n b (sortByName_namesSorted tl)

theorem allSorted_insert : (l : BqFields) → (n : String) → (b : Bq) →
    l.allSorted = true → b.sortedRecords = true → ((l.insert n b).allSorted = true)
  | .nil, n, b, _, hb => by
    simp [BqFields.insert, allSorted_cons, hb, BqFields.allSorted]
  | .cons k g tl, n, b, h, hb => by
    rw [allSorted_cons, Bool.and_eq_true] at h
    rw [insert_cons]
    by_cases hk : nameLe n k = true
    · rw [if_pos hk, allSorted_cons, allSorted_cons]
      simp [hb, h.1, h.2]
    · rw [if_neg (by simp [hk]), allSorted_cons]
      simp [h.1, allSorted_insert tl n b h.2 hb]

theorem allSorted_sortByName : (l : BqFields) →
    l.allSorted = true → (l.sortByName.allSorted = true)
  | .nil, _ => rfl
  | .cons n b tl, h => by
    rw [allSorted_cons, Bool.and_eq_true] at h
    exact allSorted_insert tl.sortByName n b (allSorted_sortByName tl h.2) h.1

theorem sortedRecords_withMode : (b : Bq) → (m : BqMode) →
    ((b.withMode m).sortedRecords = b.sortedRecords)
  | .atomic _ _, _ => rfl
  | .record _ _, _ => rfl

theorem sortedRecords_record (m : BqMode) (fs : BqFields) :
    (Bq.record m fs).sortedRecords = (fs.namesSorted && fs.allSorted) := rfl

mutual

theorem lowerBq_sortedRecords : (a : Ast) → ((lowerBq a).sortedRecords = true)
  | .atom _ _ => rfl
  | .object fs req _ => by
    have h1 := sortByName_namesSorted (lowerFields fs req)
    have h2 := allSorted_sortByName (lowerFields fs req) (lowerFields_allSorted fs req)
    simp only [lowerBq, sortedRecords_record, h1, h2, Bool.and_self]
  | .map v _ => by
    have hv := lowerBq_sortedRecords v
    have hkv : nameLe "key" "value" = true := by decide
    simp only [lowerBq, sortedRecords_record, namesSorted_cons, headGe_cons,
      allSorted_cons, sortedRecords_withMode, hv, hkv]
    decide
  | .array i _ => by
    have hi := lowerBq_sortedRecords i
    rw [lowerBq, sortedRecords_withMode]
    exact hi
  | .union _ _ => rfl
  | .intersection _ _ => rfl
  | .tuple _ _ => rfl
  | .reqOnly _ => rfl

theorem lowerFields_allSorted : (fs : Fields) → (req : List String) →
    ((lowerFields fs req).allSorted = true)
  | .nil, _ => rfl
  | .cons n a tl, req => by
    have ha := lowerBq_sortedRecords a
    have ht := lowerFields_allSorted tl req
    rw [lowerFields]
    rw [allSorted_cons, sortedRecords_withMode]
    simp [ha, ht]

end

/-- C3: BigQuery synthesis is deterministic: transpiling the same schema
twice gives identical output, and in every successful output every record's
field list, at every depth, is sorted by the `name` key. -/
theorem c3_determinism_and_sorted_fields :
    (∀ j, bq_schema j = bq_schema j) ∧
    (∀ j b, bq_schema j = .ok b → b.sortedRecords = true) := by
  refine ⟨fun _ => rfl, ?_⟩
  intro j b h
  cases hp : parseSchema j with
  | ok a =>
    rw [bq_schema, hp] at h
    simp only [Except.map] at h
    cases h
    exact lowerBq_sortedRecords _
  | error e =>
    rw [bq_schema, hp] at h
    simp [Except.map] at h

/-- Witness for C3 at the out-of-order object of
`test_object_with_atomics_is_sorted`. -/
theorem c3_determinism_and_sorted_fields_witness :
    (Bq.record .required
      (.cons "field_1" (.atomic .integer .nullable)
      (.cons "field_2" (.atomic .string .nullable)
      (.cons "field_3" (.atomic .boolean .nullable)
      (.cons "field_4" (.atomic .float .nullable) .nil))))).sortedRecords = true :=
  c3_determinism_and_sorted_fields.2 objectWithAtomics _ (by decide)

/-! ## Lemmas: membership in lowered records -/

theorem bqMem_cons (n m : String) (b g : Bq) (tl : BqFields) :
    (BqFields.cons m g tl).mem n b = ((m = n && g = b) || tl.mem n b) := rfl

theorem fMem_cons (n m : String) (a b : Ast) (tl : Fields) :
    (Fields.cons m b tl).mem n a = ((m = n && b = a) || tl.mem n a) := rfl

theorem mem_insert_self : (l : BqFields) → (n : String) → (b : Bq) →
    ((l.insert n b).mem n b = true)
  | .nil, n, b => by simp [BqFields.insert, bqMem_cons, BqFields.mem]
  | .cons k g tl, n, b => by
    rw [insert_cons]
    by_cases hk : nameLe n k = true
    · simp [hk, bqMem_cons]
    · simp [hk, bqMem_cons, mem_insert_self tl n b]

theorem mem_insert_of_mem : (l : BqFields) → (n : String) → (b : Bq) →
    (m : String) → (g : Bq) → l.mem n b = true → ((l.insert m g).mem n b = true)
  | .nil, n, b, m, g, h => by simp [BqFields.mem] at h
  | .cons k x tl, n, b, m, g, h => by
    rw [insert_cons]
    by_cases hk : nameLe m k = true
    · simp only [if_pos hk, bqMem_cons]
      rw [bqMem_cons] at h
      simp [h]
    · simp only [if_neg hk, bqMem_cons]
      rw [bqMem_cons, Bool.or_eq_true] at h
      rcases h with h | h
      · simp [h]
      · simp [mem_insert_of_mem tl n b m g h]

theorem mem_sortByName : (l : BqFields) → (n : String) → (b : Bq) →
    l.mem n b = true → (l.sortByName.mem n b = true)
  | .nil, n, b, h => by simp [BqFields.mem] at h
  | .cons k g tl, n, b, h => by
    rw [bqMem_cons, Bool.or_eq_true] at h
    rw [BqFields.sortByName]
    rcases h with h | h
    · rw [Bool.and_eq_true, decide_eq_true_eq, decide_eq_true_eq] at h
      rw [h.1, h.2]
      exact mem_insert_self tl.sortByName n b
    · exact mem_insert_of_mem tl.sortByName n b k g (mem_sortByName tl n b h)

theorem mem_lowerFields : (fs : Fields) → (req : List String) → (n : String) → (a : Ast) →
    fs.mem n a = true →
    ((lowerFields fs req).mem n
      ((lowerBq a).withMode (siteMode (lowerBq a).mode (effNullable a n req))) = true)
  | .nil, req, n, a, h => by simp [Fields.mem] at h
  | .cons m b tl, req, n, a, h => by
    rw [fMem_cons, Bool.or_eq_true] at h
    rw [lowerFields]
    rcases h with h | h
    · rw [Bool.and_eq_true, decide_eq_true_eq, decide_eq_true_eq] at h
      cases h.1
      cases h.2
      simp [bqMem_cons]
    · simp only [bqMem_cons, Bool.or_eq_true]
      exact Or.inr (mem_lowerFields tl req n a h)

/-- C5: a field listed in the (possibly allOf-overlaid) required set is
emitted `REQUIRED` when its resolved type is non-nullable and stays
`NULLABLE` when it is nullable; each object field appears in the lowered
record at its site mode; end-to-end instances from `test_allof_object` and
`test_object_with_atomics_required_with_null`. -/
theorem c5_required_not_override_nullability :
    (∀ (a : Ast) (n : String) (req : List String), req.contains n = true →
      (lowerBq a).mode ≠ .repeated →
      siteMode (lowerBq a).mode (effNullable a n req) =
        (if a.nullable then .nullable else .required)) ∧
    (∀ (fs : Fields) (req : List String) (nb : Bool) (n : String) (a : Ast),
      fs.mem n a = true →
      ((lowerBq (.object fs req nb)).fields.mem n
        ((lowerBq a).withMode (siteMode (lowerBq a).mode (effNullable a n req))) = true)) ∧
    bq_schema allOfWithRequired = .ok (.record .required
      (.cons "field_1" (.atomic .integer .nullable)
      (.cons "field_2" (.atomic .string .nullable)
      (.cons "field_3" (.atomic .boolean .required) .nil)))) ∧
    bq_schema objectRequiredWithNull = .ok (.record .required
      (.cons "field_1" (.atomic .integer .nullable)
      (.cons "field_2" (.atomic .string .nullable)
      (.cons "field_3" (.atomic .boolean .required) .nil)))) := by
  refine ⟨?_, ?_, by decide, by decide⟩
  · intro a n req hreq hnr
    rw [effNullable, hreq]
    cases ha : a.nullable <;> simp [siteMode, hnr]
  · intro fs req nb n a h
    have h1 := mem_lowerFields fs req n a h
    simp only [lowerBq, Bq.fields]
    exact mem_sortByName (lowerFields fs req) n _ h1

/-- Witness for C5: the required, nullable field `a` keeps mode `NULLABLE`
and appears as such in its record. -/
theorem c5_required_not_override_nullability_witness :
    siteMode (lowerBq (.atom .int true)).mode (effNullable (.atom .int true) "a" ["a"]) =
      (if (Ast.atom .int true).nullable then .nullable else .required) ∧
    ((lowerBq (.object (.cons "a" (.atom .int true) .nil) ["a"] false)).fields.mem "a"
      ((lowerBq (.atom .int true)).withMode
        (siteMode (lowerBq (.atom .int true)).mode (effNullable (.atom .int true) "a" ["a"]))) = true) :=
  ⟨c5_required_not_override_nullability.1 (.atom .int true) "a" ["a"] (by decide) (by decide),
   c5_required_not_override_nullability.2.1 (.cons "a" (.atom .int true) .nil) ["a"] false "a"
     (.atom .int true) (by decide)⟩

/-! ## Lemmas: merging of object field lists -/

theorem fHasName_cons (n m : String) (a : Ast) (tl : Fields) :
    (Fields.cons m a tl).hasName n = (m = n || tl.hasName n) := rfl

theorem fLookup_cons (n m : String) (a : Ast) (tl : Fields) :
    (Fields.cons m a tl).lookup n = if m = n then some a else tl.lookup n := rfl

theorem lookupRemove_cons (n m : String) (a : Ast) (tl : Fields) :
    (Fields.cons m a tl).lookupRemove n =
      if m = n then some (a, tl)
      else (tl.lookupRemove n).map (fun p => (p.1, .cons m a p.2)) := rfl

theorem markNullable_cons (m : String) (a : Ast) (tl : Fields) :
    (Fields.cons m a tl).markNullable = .cons m (a.withNullable true) tl.markNullable := rfl

theorem markNullable_hasName : (fB : Fields) → (x : String) →
    (fB.markNullable.hasName x = fB.hasName x)
  | .nil, _ => rfl
  | .cons m a tl, x => by
    rw [markNullable_cons, fHasName_cons, fHasName_cons, markNullable_hasName tl x]

theorem markNullable_lookup : (fB : Fields) → (n : String) → (b : Ast) →
    fB.lookup n = some b → (fB.markNullable.lookup n = some (b.withNullable true))
  | .nil, n, b, h => by simp [Fields.lookup] at h
  | .cons m a tl, n, b, h => by
    rw [markNullable_cons, fLookup_cons]
    rw [fLookup_cons] at h
    by_cases hm : m = n
    · rw [if_pos hm] at h ⊢
      cases h
      rfl
    · rw [if_neg hm] at h ⊢
      exact markNullable_lookup tl n b h

theorem lookupRemove_none_hasName : (fB : Fields) → (n : String) →
    fB.lookupRemove n = none → fB.hasName n = false
  | .nil, _, _ => rfl
  | .cons m a tl, n, h => by
    rw [lookupRemove_cons] at h
    by_cases hm : m = n
    · rw [if_pos hm] at h
      cases h
    · rw [if_neg hm] at h
      have htl : tl.lookupRemove n = none := by
        cases hlr : tl.lookupRemove n with
        | none => rfl
        | some p => rw [hlr] at h; simp [Option.map] at h
      rw [fHasName_cons]
      simp [hm, lookupRemove_none_hasName tl n htl]

theorem hasName_false_lookupRemove : (fB : Fields) → (n : String) →
    fB.hasName n = false → fB.lookupRemove n = none
  | .nil, _, _ => rfl
  | .cons m a tl, n, h => by
    rw [fHasName_cons, Bool.or_eq_false_iff] at h
    rw [lookupRemove_cons, if_neg (by simpa using h.1)]
    rw [hasName_false_lookupRemove tl n h.2]
    rfl

theorem hasName_false_lookup : (fB : Fields) → (n : String) →
    fB.hasName n = false → fB.lookup n = none
  | .nil, _, _ => rfl
  | .cons m a tl, n, h => by
    rw [fHasName_cons, Bool.or_eq_false_iff] at h
    rw [fLookup_cons, if_neg (by simpa using h.1)]
    exact hasName_false_lookup tl n h.2

theorem lookupRemove_some_lookup : (fB : Fields) → (n : String) → (b : Ast) → (fB2 : Fields) →
    fB.lookupRemove n = some (b, fB2) → fB.lookup n = some b
  | .nil, n, b, fB2, h => by simp [Fields.lookupRemove] at h
  | .cons m a tl, n, b, fB2, h => by
    rw [lookupRemove_cons] at h
    rw [fLookup_cons]
    by_cases hm : m = n
    · rw [if_pos hm] at h ⊢
      cases h
      rfl
    · rw [if_neg hm] at h ⊢
      cases hlr : tl.lookupRemove n with
      | none => rw [hlr] at h; simp [Option.map] at h
      | some p =>
        rw [hlr] at h
        simp only [Option.map, Option.some.injEq] at h
        have hb : p.1 = b := congrArg Prod.fst h
        exact hb ▸ lookupRemove_some_lookup tl n p.1 p.2 (by rw [hlr])

theorem lookupRemove_hasName_ne : (fB : Fields) → (n x : String) → (b : Ast) → (fB2 : Fields) →
    ¬ x = n → fB.lookupRemove n = some (b, fB2) → fB2.hasName x = fB.hasName x
  | .nil, n, x, b, fB2, _, h => by simp [Fields.lookupRemove] at h
  | .cons m a tl, n, x, b, fB2, hx, h => by
    rw [lookupRemove_cons] at h
    by_cases hm : m = n
    · rw [if_pos hm] at h
      cases h
      rw [fHasName_cons]
      have : ¬ m = x := fun hh => hx (by rw [← hh, hm])
      simp [this]
    · rw [if_neg hm] at h
      cases hlr : tl.lookupRemove n with
      | none => rw [hlr] at h; simp [Option.map] at h
      | some p =>
        rw [hlr] at h
        simp only [Option.map, Option.some.injEq] at h
        have h2 : fB2 = .cons m a p.2 := (congrArg Prod.snd h).symm
        subst h2
        rw [fHasName_cons, fHasName_cons,
          lookupRemove_hasName_ne tl n x p.1 p.2 hx (by rw [hlr])]

theorem lookupRemove_lookup_ne : (fB : Fields) → (n x : String) → (b : Ast) → (fB2 : Fields) →
    ¬ x = n → fB.lookupRemove n = some (b, fB2) → fB2.lookup x = fB.lookup x
  | .nil, n, x, b, fB2, _, h => by simp [Fields.lookupRemove] at h
  | .cons m a tl, n, x, b, fB2, hx, h => by
    rw [lookupRemove_cons] at h
    by_cases hm : m = n
    · rw [if_pos hm] at h
      cases h
      rw [fLookup_cons]
      have : ¬ m = x := fun hh => hx (by rw [← hh, hm])
      rw [if_neg this]
    · rw [if_neg hm] at h
      cases hlr : tl.lookupRemove n with
      | none => rw [hlr] at h; simp [Option.map] at h
      | some p =>
        rw [hlr] at h
        simp only [Option.map, Option.some.injEq] at h
        have h2 : fB2 = .cons m a p.2 := (congrArg Prod.snd h).symm
        subst h2
        rw [fLookup_cons, fLookup_cons,
          lookupRemove_lookup_ne tl n x p.1 p.2 hx (by rw [hlr])]

theorem mergeObjFields_nil (fB : Fields) :
    mergeObjFields .nil fB = some fB.markNullable := rfl

theorem mergeObjFields_cons_absent (n : String) (a : Ast) (tl fB : Fields)
    (h : fB.lookupRemove n = none) :
    mergeObjFields (.cons n a tl) fB =
      (mergeObjFields tl fB).map (fun fs => .cons n (a.withNullable true) fs) := by
  simp only [mergeObjFields, h]

theorem mergeObjFields_cons_conflict (n : String) (a : Ast) (tl fB : Fields)
    (b : Ast) (fB2 : Fields)
    (h : fB.lookupRemove n = some (b, fB2)) (hm : mergeAst a b = none) :
    mergeObjFields (.cons n a tl) fB = none := by
  simp only [mergeObjFields, h, hm]

theorem mergeObjFields_cons_common (n : String) (a : Ast) (tl fB : Fields)
    (b : Ast) (fB2 : Fields) (m : Ast)
    (h : fB.lookupRemove n = some (b, fB2)) (hm : mergeAst a b = some m) :
    mergeObjFields (.cons n a tl) fB =
      (mergeObjFields tl fB2).map (fun fs => .cons n m fs) := by
  simp only [mergeObjFields, h, hm]

/-- A successful object-field merge has exactly the union of the two field
name sets. -/
theorem mergeObjFields_names : (fA : Fields) → (fB fs : Fields) →
    mergeObjFields fA fB = some fs → ∀ x, fs.hasName x = (fA.hasName x || fB.hasName x)
  | .nil, fB, fs, h, x => by
    rw [mergeObjFields_nil] at h
    cases h
    rw [markNullable_hasName]
    rfl
  | .cons m a tl, fB, fs, h, x => by
    cases hlr : fB.lookupRemove m with
    | some p =>
      obtain ⟨b, fB2⟩ := p
      cases hma : mergeAst a b with
      | none => rw [mergeObjFields_cons_conflict m a tl fB b fB2 hlr hma] at h; cases h
      | some mm =>
        rw [mergeObjFields_cons_common m a tl fB b fB2 mm hlr hma] at h
        cases hmf : mergeObjFields tl fB2 with
        | none => rw [hmf] at h; cases h
        | some fs2 =>
          rw [hmf] at h
          cases h
          rw [fHasName_cons, fHasName_cons]
          by_cases hx : m = x
          · have hbx : fB.hasName x = true := by
              rw [← hx]
              have hl := lookupRemove_some_lookup fB m b fB2 hlr
              cases hfb : fB.hasName m with
              | false => rw [hasName_false_lookup fB m hfb] at hl; cases hl
              | true => rfl
            simp [hx, hbx]
          · have hne := lookupRemove_hasName_ne fB m x b fB2 (fun hh => hx hh.symm) hlr
            simp [hx, mergeObjFields_names tl fB2 fs2 hmf x, hne]
    | none =>
      rw [mergeObjFields_cons_absent m a tl fB hlr] at h
      cases hmf : mergeObjFields tl fB with
      | none => rw [hmf] at h; cases h
      | some fs2 =>
        rw [hmf] at h
        cases h
        rw [fHasName_cons, fHasName_cons]
        by_cases hx : m = x
        · simp [hx]
        · simp [hx, mergeObjFields_names tl fB fs2 hmf x]

/-- In a successful object-field merge, a field present in both operands
carries the (successful) recursive merge of the two field schemas. -/
theorem mergeObjFields_common : (fA : Fields) → (fB fs : Fields) → (n : String) → (a b : Ast) →
    mergeObjFields fA fB = some fs → fA.lookup n = some a → fB.lookup n = some b →
    ∃ m, mergeAst a b = some m ∧ fs.lookup n = some m
  | .nil, fB, fs, n, a, b, _, ha, _ => by simp [Fields.lookup] at ha
  | .cons k x tl, fB, fs, n, a, b, h, ha, hb => by
    rw [fLookup_cons] at ha
    cases hlr : fB.lookupRemove k with
    | some p =>
      obtain ⟨bk, fB2⟩ := p
      cases hma : mergeAst x bk with
      | none => rw [mergeObjFields_cons_conflict k x tl fB bk fB2 hlr hma] at h; cases h
      | some mm =>
        rw [mergeObjFields_cons_common k x tl fB bk fB2 mm hlr hma] at h
        cases hmf : mergeObjFields tl fB2 with
        | none => rw [hmf] at h; cases h
        | some fs2 =>
          rw [hmf] at h
          cases h
          by_cases hk : k = n
          · rw [if_pos hk] at ha
            cases ha
            have hbk : bk = b := by
              have h1 := lookupRemove_some_lookup fB k bk fB2 hlr
              rw [hk, hb] at h1
              cases h1
              rfl
            subst hbk
            refine ⟨mm, hma, ?_⟩
            rw [fLookup_cons, if_pos hk]
          · rw [if_neg hk] at ha
            have hb2 : fB2.lookup n = some b := by
              rw [lookupRemove_lookup_ne fB k n bk fB2 (fun hh => hk hh.symm) hlr]
              exact hb
            obtain ⟨m2, hm2, hl2⟩ := mergeObjFields_common tl fB2 fs2 n a b hmf ha hb2
            refine ⟨m2, hm2, ?_⟩
            rw [fLookup_cons, if_neg hk]
            exact hl2
    | none =>
      rw [mergeObjFields_cons_absent k x tl fB hlr] at h
      cases hmf : mergeObjFields tl fB with
      | none => rw [hmf] at h; cases h
      | some fs2 =>
        rw [hmf] at h
        cases h
        by_cases hk : k = n
        · exfalso
          have hfb := lookupRemove_none_hasName fB k hlr
          rw [hk] at hfb
          rw [hasName_false_lookup fB n hfb] at hb
          cases hb
        · rw [if_neg hk] at ha
          obtain ⟨m2, hm2, hl2⟩ := mergeObjFields_common tl fB fs2 n a b hmf ha hb
          refine ⟨m2, hm2, ?_⟩
          rw [fLookup_cons, if_neg hk]
          exact hl2

/-- In a successful object-field merge, a field present only in the left
operand is copied marked nullable. -/
theorem mergeObjFields_onlyLeft : (fA : Fields) → (fB fs : Fields) → (n : String) → (a : Ast) →
    mergeObjFields fA fB = some fs → fA.lookup n = some a → fB.hasName n = false →
    fs.lookup n = some (a.withNullable true)
  | .nil, fB, fs, n, a, _, ha, _ => by simp [Fields.lookup] at ha
  | .cons k x tl, fB, fs, n, a, h, ha, hb => by
    rw [fLookup_cons] at ha
    cases hlr : fB.lookupRemove k with
    | some p =>
      obtain ⟨bk, fB2⟩ := p
      cases hma : mergeAst x bk with
      | none => rw [mergeObjFields_cons_conflict k x tl fB bk fB2 hlr hma] at h; cases h
      | some mm =>
        rw [mergeObjFields_cons_common k x tl fB bk fB2 mm hlr hma] at h
        cases hmf : mergeObjFields tl fB2 with
        | none => rw [hmf] at h; cases h
        | some fs2 =>
          rw [hmf] at h
          cases h
          by_cases hk : k = n
          · exfalso
            have h1 := lookupRemove_some_lookup fB k bk fB2 hlr
            rw [hk, hasName_false_lookup fB n hb] at h1
            cases h1
          · rw [if_neg hk] at ha
            have hb2 : fB2.hasName n = false := by
              rw [lookupRemove_hasName_ne fB k n bk fB2 (fun hh => hk hh.symm) hlr]
              exact hb
            rw [fLookup_cons, if_neg hk]
            exact mergeObjFields_onlyLeft tl fB2 fs2 n a hmf ha hb2
    | none =>
      rw [mergeObjFields_cons_absent k x tl fB hlr] at h
      cases hmf : mergeObjFields tl fB with
      | none => rw [hmf] at h; cases h
      | some fs2 =>
        rw [hmf] at h
        cases h
        by_cases hk : k = n
        · rw [if_pos hk] at ha
          cases ha
          rw [fLookup_cons, if_pos hk]
        · rw [if_neg hk] at ha
          rw [fLookup_cons, if_neg hk]
          exact mergeObjFields_onlyLeft tl fB fs2 n a hmf ha hb

/-- In a successful object-field merge, a field present only in the right
operand is copied marked nullable. -/
theorem mergeObjFields_onlyRight : (fA : Fields) → (fB fs : Fields) → (n : String) → (b : Ast) →
    mergeObjFields fA fB = some fs → fB.lookup n = some b → fA.hasName n = false →
    fs.lookup n = some (b.withNullable true)
  | .nil, fB, fs, n, b, h, hb, _ => by
    rw [mergeObjFields_nil] at h
    cases h
    exact markNullable_lookup fB n b hb
  | .cons k x tl, fB, fs, n, b, h, hb, ha => by
    rw [fHasName_cons, Bool.or_eq_false_iff] at ha
    have hk : ¬ k = n := by simpa using ha.1
    cases hlr : fB.lookupRemove k with
    | some p =>
      obtain ⟨bk, fB2⟩ := p
      cases hma : mergeAst x bk with
      | none => rw [mergeObjFields_cons_conflict k x tl fB bk fB2 hlr hma] at h; cases h
      | some mm =>
        rw [mergeObjFields_cons_common k x tl fB bk fB2 mm hlr hma] at h
        cases hmf : mergeObjFields tl fB2 with
        | none => rw [hmf] at h; cases h
        | some fs2 =>
          rw [hmf] at h
          cases h
          have hb2 : fB2.lookup n = some b := by
            rw [lookupRemove_lookup_ne fB k n bk fB2 (fun hh => hk hh.symm) hlr]
            exact hb
          rw [fLookup_cons, if_neg hk]
          exact mergeObjFields_onlyRight tl fB2 fs2 n b hmf hb2 ha.2
    | none =>
      rw [mergeObjFields_cons_absent k x tl fB hlr] at h
      cases hmf : mergeObjFields tl fB with
      | none => rw [hmf] at h; cases h
      | some fs2 =>
        rw [hmf] at h
        cases h
        rw [fLookup_cons, if_neg hk]
        exact mergeObjFields_onlyRight tl fB fs2 n b hmf hb ha.2

theorem mergeAst_objects (fA : Fields) (rA : List String) (nA : Bool)
    (fB : Fields) (rB : List String) (nB : Bool) :
    mergeAst (.object fA rA nA) (.object fB rB nB) =
      (mergeObjFields fA fB).map
        (fun fs => .object fs (mergeRequired rA rB (commonNames fA fB)) (nA || nB)) := rfl

/-- C4 counterexample: the claim fails on the code in two ways.  The
`oneOf` of two objects with conflicting types for the common `field_1`
transpiles to the opaque `STRING`, not to a record with the union of the
field names; and a field present in only one alternative whose type is an
array is emitted `REPEATED`, not `NULLABLE`. -/
theorem c4_counterexample :
    bq_schema incompatibleOneOfObjects = .ok (.atomic .string .required) ∧
    bq_schema oneOfWithArrayField = .ok (.record .required
      (.cons "a" (.atomic .integer .repeated)
      (.cons "b" (.atomic .boolean .nullable) .nil))) :=
  ⟨by decide, by decide⟩

/-- C4 (amended): when the merge of two objects succeeds (no common field
conflicts), the result has exactly the union of the field names, common
fields carry the recursive merge, one-sided fields are copied marked
nullable, and a nullable-marked field is emitted `NULLABLE` at its site
unless its lowering is `REPEATED`; the compatible `oneOf` object merge of
`test_oneof_object_merge` transpiles end to end as expected.  When a common
field conflicts, the whole merge fails and the `oneOf` degrades to the
opaque `STRING` (see the counterexample). -/
theorem c4_object_merge :
    (∀ fA rA nA fB rB nB r, mergeAst (.object fA rA nA) (.object fB rB nB) = some r →
      ∃ fs, r = .object fs (mergeRequired rA rB (commonNames fA fB)) (nA || nB) ∧
        mergeObjFields fA fB = some fs ∧
        (∀ x, fs.hasName x = (fA.hasName x || fB.hasName x)) ∧
        (∀ n a b, fA.lookup n = some a → fB.lookup n = some b →
          ∃ m, mergeAst a b = some m ∧ fs.lookup n = some m) ∧
        (∀ n a, fA.lookup n = some a → fB.hasName n = false →
          fs.lookup n = some (a.withNullable true)) ∧
        (∀ n b, fB.lookup n = some b → fA.hasName n = false →
          fs.lookup n = some (b.withNullable true))) ∧
    (∀ (a : Ast) (n : String) (req : List String), a.nullable = true →
      (lowerBq a).mode ≠ .repeated →
      siteMode (lowerBq a).mode (effNullable a n req) = .nullable) ∧
    bq_schema oneOfObjectMerge = .ok (.record .required
      (.cons "field_1" (.atomic .integer .nullable)
      (.cons "field_2" (.atomic .boolean .nullable)
      (.cons "field_3" (.atomic .float .nullable) .nil)))) := by
  refine ⟨?_, ?_, by decide⟩
  · intro fA rA nA fB rB nB r h
    rw [mergeAst_objects] at h
    cases hmf : mergeObjFields fA fB with
    | none => rw [hmf] at h; cases h
    | some fs =>
      rw [hmf] at h
      simp only [Option.map, Option.some.injEq] at h
      refine ⟨fs, h.symm, rfl, ?_, ?_, ?_, ?_⟩
      · exact mergeObjFields_names fA fB fs hmf
      · exact fun n a b ha hb => mergeObjFields_common fA fB fs n a b hmf ha hb
      · exact fun n a ha hb => mergeObjFields_onlyLeft fA fB fs n a hmf ha hb
      · exact fun n b hb ha => mergeObjFields_onlyRight fA fB fs n b hmf hb ha
  · intro a n req ha hm
    rw [effNullable, ha]
    simp [siteMode, hm]

/-- Witness for C4: a concrete successful merge of `{x: int}` and
`{y: bool}`. -/
theorem c4_object_merge_witness :
    ∃ fs, (Ast.object (.cons "x" (.atom .int true) (.cons "y" (.atom .bool true) .nil)) [] false) =
        .object fs (mergeRequired [] []
          (commonNames (.cons "x" (.atom .int false) .nil) (.cons "y" (.atom .bool false) .nil)))
          (false || false) ∧
      mergeObjFields (.cons "x" (.atom .int false) .nil) (.cons "y" (.atom .bool false) .nil) = some fs ∧
      (∀ x, fs.hasName x = ((Fields.cons "x" (.atom .int false) .nil).hasName x ||
        (Fields.cons "y" (.atom .bool false) .nil).hasName x)) ∧
      (∀ n a b, (Fields.cons "x" (.atom .int false) .nil).lookup n = some a →
        (Fields.cons "y" (.atom .bool false) .nil).lookup n = some b →
        ∃ m, mergeAst a b = some m ∧ fs.lookup n = some m) ∧
      (∀ n a, (Fields.cons "x" (.atom .int false) .nil).lookup n = some a →
        (Fields.cons "y" (.atom .bool false) .nil).hasName n = false →
        fs.lookup n = some (a.withNullable true)) ∧
      (∀ n b, (Fields.cons "y" (.atom .bool false) .nil).lookup n = some b →
        (Fields.cons "x" (.atom .int false) .nil).hasName n = false →
        fs.lookup n = some (b.withNullable true)) :=
  c4_object_merge.1 (.cons "x" (.atom .int false) .nil) [] false
    (.cons "y" (.atom .bool false) .nil) [] false
    (.object (.cons "x" (.atom .int true) (.cons "y" (.atom .bool true) .nil)) [] false)
    (by decide)
